import Mathlib

/-!
Formal model of the client-side cache / queue / optimizer core of the Niro
video-generation front end, together with theorems settling the stated
properties of that core.

The embedding is shallow: each TypeScript class becomes a Lean state
structure, each method a pure function from state (plus an explicit wall
clock `now : Nat`, standing for `Date.now()`) to state.  JavaScript `Map`
objects are modelled as key-unique association lists in insertion order,
which is exactly the iteration order `Map` guarantees.  JavaScript numbers
that participate in fractional arithmetic are modelled as exact rationals.
-/

namespace CacheManager

/-- One stored cache entry (interface `CacheEntry` in the source).  The
payload type `α` stands for the TypeScript `any`; its byte footprint is
computed by the serializer-derived size function passed to the operations. -/
structure CacheEntry (α : Type) where
  key : String
  data : α
  timestamp : Nat
  expiresAt : Nat
  size : Nat
  hits : Nat
  lastAccessed : Nat
deriving DecidableEq

/-- The mutable state of a `CacheManager`: the entry map (insertion-ordered,
key-unique association list, as a JS `Map`) and the global hit/miss
counters. -/
structure CacheState (α : Type) where
  cache : List (CacheEntry α)
  hits : Nat
  misses : Nat
deriving DecidableEq

/-- Models `private maxSize = 100 * 1024 * 1024` (100 MB). -/
def maxSize : Nat := 100 * 1024 * 1024

/-- Models `private defaultTTL = 24 * 60 * 60 * 1000` (24 hours, in ms). -/
def defaultTTL : Nat := 24 * 60 * 60 * 1000

/-- The state constructed by the `CacheManager` constructor when nothing was
persisted: empty map, zero counters. -/
def initCache (α : Type) : CacheState α := ⟨[], 0, 0⟩

/-- Models `this.cache.get(key)` on the modelled `Map`. -/
def findEntry (c : List (CacheEntry α)) (k : String) : Option (CacheEntry α) :=
  c.find? (fun e => e.key == k)

/-- Models `this.cache.set(key, entry)` on the modelled `Map`: replace in place when
the key is present (JS `Map.set` keeps the original insertion position),
append otherwise. -/
def mapSet (c : List (CacheEntry α)) (k : String) (e : CacheEntry α) :
    List (CacheEntry α) :=
  if c.any (fun x => x.key == k) then
    c.map (fun x => if x.key == k then e else x)
  else c ++ [e]

/-- Models `this.cache.delete(key)` on the modelled `Map`. -/
def mapDelete (c : List (CacheEntry α)) (k : String) : List (CacheEntry α) :=
  c.filter (fun e => !(e.key == k))

/-- Models `private calculateSize(data) { return JSON.stringify(data).length * 2 }`,
for a payload type with serializer `stringify`. -/
def jsCalculateSize (stringify : α → String) (d : α) : Nat :=
  (stringify d).length * 2

/-- Models `private getCurrentSize()`: sum of `size` over all stored entries. -/
def totalSize (c : List (CacheEntry α)) : Nat :=
  (c.map (fun e => e.size)).sum

/-- Comparator of `evictLRU`: `(a, b) => a.lastAccessed - b.lastAccessed`
sorts ascending by `lastAccessed`. -/
def laLe (a b : CacheEntry α) : Prop := a.lastAccessed ≤ b.lastAccessed

instance : DecidableRel (laLe (α := α)) :=
  fun a b => Nat.decLe a.lastAccessed b.lastAccessed

instance : IsTotal (CacheEntry α) laLe :=
  ⟨fun a b => Nat.le_total a.lastAccessed b.lastAccessed⟩

instance : IsTrans (CacheEntry α) laLe := ⟨fun _ _ _ h h' => Nat.le_trans h h'⟩

/-- Models `Array.from(this.cache.values()).sort((a, b) => a.lastAccessed - b.lastAccessed)`.
JS `Array.prototype.sort` is stable, and a left-fold insertion that keeps an
incoming earlier element before later equal ones is the stable ascending
sort. -/
def sortLA (c : List (CacheEntry α)) : List (CacheEntry α) :=
  List.insertionSort laLe c

/-- The loop body of `evictLRU`: walk the entries sorted by `lastAccessed`,
breaking as soon as `freedSpace >= requiredSpace`, otherwise deleting the
entry from the map and accounting its size as freed. -/
def evictGo (c : List (CacheEntry α)) (freed required : Nat) :
    List (CacheEntry α) → List (CacheEntry α)
  | [] => c
  | e :: rest =>
      if required ≤ freed then c
      else evictGo (mapDelete c e.key) (freed + e.size) required rest

/-- Models `private async evictLRU(requiredSpace)`. -/
def evictLRU (c : List (CacheEntry α)) (required : Nat) : List (CacheEntry α) :=
  evictGo c 0 required (sortLA c)

/-- Models `async set(key, data, ttl?)`.  Note `ttl || this.defaultTTL` falls back to
the default also when `ttl` is passed as `0`.  The entry is inserted
unconditionally after the eviction attempt and the method returns `true`. -/
def set (calcSize : α → Nat) (s : CacheState α) (k : String) (d : α)
    (ttl : Option Nat) (now : Nat) : CacheState α × Bool :=
  let effTTL := match ttl with
    | some t => if t = 0 then defaultTTL else t
    | none => defaultTTL
  let entry : CacheEntry α :=
    ⟨k, d, now, now + effTTL, calcSize d, 0, now⟩
  let c1 := if maxSize < totalSize s.cache + entry.size then
              evictLRU s.cache entry.size
            else s.cache
  ({ s with cache := mapSet c1 k entry }, true)

/-- Models `async get(key)`: miss on absent key; expired entries are deleted and
counted as misses; hits bump the entry's `hits`/`lastAccessed` and the global
hit counter. -/
def get (s : CacheState α) (k : String) (now : Nat) :
    CacheState α × Option α :=
  match findEntry s.cache k with
  | none => ({ s with misses := s.misses + 1 }, none)
  | some e =>
      if e.expiresAt < now then
        ({ s with cache := mapDelete s.cache k, misses := s.misses + 1 }, none)
      else
        ({ s with
            cache := s.cache.map (fun x =>
              if x.key == k then { x with hits := x.hits + 1, lastAccessed := now } else x),
            hits := s.hits + 1 }, some e.data)

/-- Models `async delete(key)`. -/
def deleteEntry (s : CacheState α) (k : String) : CacheState α × Bool :=
  match findEntry s.cache k with
  | none => (s, false)
  | some _ => ({ s with cache := mapDelete s.cache k }, true)

/-- Models `async clear()`: drops every entry and resets the counters. -/
def clearCache (s : CacheState α) : CacheState α :=
  { s with cache := [], hits := 0, misses := 0 }

/-- Models `private cleanup()`: the 5-minute sweep; removes every entry whose
`expiresAt` has passed. -/
def cleanupSweep (s : CacheState α) (now : Nat) : CacheState α :=
  { s with cache := s.cache.filter (fun e => !(decide (e.expiresAt < now))) }

/-- The entries deleted by the `evictLRU` loop: the shortest prefix of the
`lastAccessed`-sorted entry list whose accumulated size reaches the required
space (or the whole list when it never does). -/
def evictTaken (freed required : Nat) : List (CacheEntry α) → List (CacheEntry α)
  | [] => []
  | e :: rest =>
      if required ≤ freed then []
      else e :: evictTaken (freed + e.size) required rest

theorem totalSize_cons (e : CacheEntry α) (t : List (CacheEntry α)) :
    totalSize (e :: t) = e.size + totalSize t := by
  simp [totalSize]

theorem totalSize_filter_le (p : CacheEntry α → Bool) (c : List (CacheEntry α)) :
    totalSize (c.filter p) ≤ totalSize c := by
  induction c with
  | nil => simp [totalSize]
  | cons e t ih =>
      by_cases h : p e
      · simp [List.filter_cons, h, totalSize_cons]
        omega
      · simp [List.filter_cons, h, totalSize_cons]
        omega

theorem nodup_keys_filter (p : CacheEntry α → Bool) (c : List (CacheEntry α))
    (hnd : (c.map CacheEntry.key).Nodup) :
    ((c.filter p).map CacheEntry.key).Nodup :=
  List.Nodup.sublist (List.Sublist.map CacheEntry.key (List.filter_sublist c)) hnd

theorem mem_of_mem_delete {c : List (CacheEntry α)} {k : String} {x : CacheEntry α}
    (h : x ∈ mapDelete c k) : x ∈ c :=
  (List.mem_filter.mp h).1

theorem totalSize_delete (c : List (CacheEntry α)) (e : CacheEntry α)
    (hmem : e ∈ c) (hnd : (c.map CacheEntry.key).Nodup) :
    totalSize (mapDelete c e.key) + e.size = totalSize c := by
  induction c with
  | nil => cases hmem
  | cons x t ih =>
      simp only [List.map_cons, List.nodup_cons] at hnd
      rcases List.mem_cons.mp hmem with rfl | hm
      · have hkeep : ∀ y ∈ t, (!(y.key == e.key)) = true := by
          intro y hy
          have : y.key ≠ e.key := by
            intro hk
            exact hnd.1 (hk ▸ List.mem_map_of_mem CacheEntry.key hy)
          simpa using this
        have : mapDelete (e :: t) e.key = t := by
          simp only [mapDelete, List.filter_cons, beq_self_eq_true, Bool.not_true,
            Bool.false_eq_true, if_neg]
          exact List.filter_eq_self.mpr hkeep
        rw [this, totalSize_cons]
        omega
      · have hxk : ¬ x.key = e.key := by
          intro hk
          exact hnd.1 (hk ▸ List.mem_map_of_mem CacheEntry.key hm)
        have : mapDelete (x :: t) e.key = x :: mapDelete t e.key := by
          simp [mapDelete, List.filter_cons, hxk]
        rw [this, totalSize_cons, totalSize_cons]
        have := ih hm hnd.2
        omega

theorem evictGo_total (r : Nat) (l : List (CacheEntry α)) :
    ∀ (c : List (CacheEntry α)) (f : Nat),
      (l.map CacheEntry.key).Nodup → (c.map CacheEntry.key).Nodup →
      (∀ e ∈ l, e ∈ c) →
      totalSize (evictGo c f r l) + r ≤ totalSize c + f ∨
        ∀ e ∈ evictGo c f r l, e ∈ c ∧ e ∉ l := by
  induction l with
  | nil =>
      intro c f _ _ _
      right
      intro e he
      exact ⟨he, by simp⟩
  | cons x t ih =>
      intro c f hndl hndc hsub
      simp only [List.map_cons, List.nodup_cons] at hndl
      by_cases hfr : r ≤ f
      · left
        simp only [evictGo, if_pos hfr]
        omega
      · simp only [evictGo, if_neg hfr]
        have hx : x ∈ c := hsub x (by simp)
        have hsub' : ∀ e ∈ t, e ∈ mapDelete c x.key := by
          intro e he
          have hec : e ∈ c := hsub e (by simp [he])
          have hk : ¬ e.key = x.key := by
            intro hkk
            exact hndl.1 (hkk ▸ List.mem_map_of_mem CacheEntry.key he)
          simp [mapDelete, List.mem_filter, hec, hk]
        have hndc' : ((mapDelete c x.key).map CacheEntry.key).Nodup :=
          nodup_keys_filter _ c hndc
        rcases ih (mapDelete c x.key) (f + x.size) hndl.2 hndc' hsub' with h | h
        · left
          have htot : totalSize (mapDelete c x.key) + x.size = totalSize c :=
            totalSize_delete c x hx hndc
          omega
        · right
          intro e he
          obtain ⟨h1, h2⟩ := h e he
          refine ⟨mem_of_mem_delete h1, ?_⟩
          intro hmem
          rcases List.mem_cons.mp hmem with rfl | hm
          · have := (List.mem_filter.mp h1).2
            simp at this
          · exact h2 hm

/-- Either `evictLRU` freed at least the requested space, or it emptied the
cache: the loop runs `until enough space is freed or the cache is empty`. -/
theorem evictLRU_total (c : List (CacheEntry α)) (r : Nat)
    (hnd : (c.map CacheEntry.key).Nodup) :
    totalSize (evictLRU c r) + r ≤ totalSize c ∨ evictLRU c r = [] := by
  have hperm : List.Perm (sortLA c) c := List.perm_insertionSort _ c
  have hndl : ((sortLA c).map CacheEntry.key).Nodup :=
    ((hperm.map CacheEntry.key).nodup_iff).mpr hnd
  have hsub : ∀ e ∈ sortLA c, e ∈ c := fun e he => hperm.mem_iff.mp he
  rcases evictGo_total r (sortLA c) c 0 hndl hnd hsub with h | h
  · left
    simpa [evictLRU] using h
  · right
    refine List.eq_nil_iff_forall_not_mem.mpr fun e he => ?_
    obtain ⟨h1, h2⟩ := h e he
    exact h2 (hperm.mem_iff.mpr h1)

theorem evictGo_eq_filter (r : Nat) (l : List (CacheEntry α)) :
    ∀ (c : List (CacheEntry α)) (f : Nat),
      evictGo c f r l =
        c.filter (fun x => !(evictTaken f r l).any (fun y => x.key == y.key)) := by
  induction l with
  | nil =>
      intro c f
      simp [evictGo, evictTaken]
  | cons e t ih =>
      intro c f
      by_cases hfr : r ≤ f
      · simp [evictGo, evictTaken, hfr]
      · simp only [evictGo, evictTaken, if_neg hfr]
        rw [ih, mapDelete, List.filter_filter]
        refine List.filter_congr fun x _ => ?_
        simp only [List.any_cons, Bool.not_or, Bool.and_comm]

theorem evictLRU_eq_filter (c : List (CacheEntry α)) (r : Nat) :
    evictLRU c r =
      c.filter (fun x => !(evictTaken 0 r (sortLA c)).any (fun y => x.key == y.key)) :=
  evictGo_eq_filter r (sortLA c) c 0

theorem mem_of_mem_evictLRU {c : List (CacheEntry α)} {r : Nat} {e : CacheEntry α}
    (h : e ∈ evictLRU c r) : e ∈ c := by
  rw [evictLRU_eq_filter] at h
  exact (List.mem_filter.mp h).1

theorem nodup_keys_evictLRU (c : List (CacheEntry α)) (r : Nat)
    (hnd : (c.map CacheEntry.key).Nodup) :
    ((evictLRU c r).map CacheEntry.key).Nodup := by
  rw [evictLRU_eq_filter]
  exact nodup_keys_filter _ c hnd

theorem evictTaken_subset (r : Nat) (l : List (CacheEntry α)) :
    ∀ (f : Nat), ∀ x ∈ evictTaken f r l, x ∈ l := by
  induction l with
  | nil => simp [evictTaken]
  | cons e t ih =>
      intro f x hx
      by_cases hfr : r ≤ f
      · simp [evictTaken, hfr] at hx
      · simp only [evictTaken, if_neg hfr] at hx
        rcases List.mem_cons.mp hx with rfl | hxt
        · simp
        · exact List.mem_cons_of_mem e (ih (f + e.size) x hxt)

theorem evictTaken_sorted_le (r : Nat) (l : List (CacheEntry α)) :
    ∀ (f : Nat), l.Sorted laLe →
      ∀ x ∈ evictTaken f r l, ∀ e ∈ l,
        (∀ y ∈ evictTaken f r l, y.key ≠ e.key) →
        x.lastAccessed ≤ e.lastAccessed := by
  induction l with
  | nil => simp [evictTaken]
  | cons a t ih =>
      intro f hsort x hx e he hno
      by_cases hfr : r ≤ f
      · simp [evictTaken, hfr] at hx
      · simp only [evictTaken, if_neg hfr] at hx hno
        have hka : a.key ≠ e.key := hno a (by simp)
        have het : e ∈ t := by
          rcases List.mem_cons.mp he with rfl | h
          · exact absurd rfl hka
          · exact h
        rcases List.mem_cons.mp hx with rfl | hxt
        · exact (List.sorted_cons.mp hsort).1 e het
        · exact ih (f + a.size) (List.sorted_cons.mp hsort).2 x hxt e het
            (fun y hy => hno y (List.mem_cons_of_mem a hy))

theorem key_inj {c : List (CacheEntry α)} (hnd : (c.map CacheEntry.key).Nodup)
    {a b : CacheEntry α} (ha : a ∈ c) (hb : b ∈ c) (hk : a.key = b.key) : a = b :=
  List.inj_on_of_nodup_map hnd ha hb hk

/-- Eviction is pure LRU: every entry evicted by `evictLRU` has a
`lastAccessed` no later than that of every surviving entry. -/
theorem evictLRU_lru_order (c : List (CacheEntry α)) (r : Nat)
    (hnd : (c.map CacheEntry.key).Nodup) :
    ∀ x ∈ c, x ∉ evictLRU c r →
      ∀ e ∈ evictLRU c r, x.lastAccessed ≤ e.lastAccessed := by
  intro x hx hxout e he
  have hperm : List.Perm (sortLA c) c := List.perm_insertionSort _ c
  have hec : e ∈ c := mem_of_mem_evictLRU he
  rw [evictLRU_eq_filter] at he hxout
  have hxc := hx
  have hxtaken : x ∈ evictTaken 0 r (sortLA c) := by
    by_contra hnx
    apply hxout
    refine List.mem_filter.mpr ⟨hxc, ?_⟩
    simp only [Bool.not_eq_true', List.any_eq_false]
    intro y hy
    have hyx : ¬ y = x := by
      intro h
      exact hnx (h ▸ hy)
    have hyl : y ∈ sortLA c := evictTaken_subset r (sortLA c) 0 y hy
    have hyc : y ∈ c := hperm.mem_iff.mp hyl
    have : ¬ x.key = y.key := fun hk => hyx (key_inj hnd hyc hxc hk.symm)
    simpa using this
  have heno : ∀ y ∈ evictTaken 0 r (sortLA c), y.key ≠ e.key := by
    intro y hy hk
    have := (List.mem_filter.mp he).2
    simp only [Bool.not_eq_true', List.any_eq_false] at this
    have := this y hy
    simp [hk] at this
  exact evictTaken_sorted_le r (sortLA c) 0
    (List.sorted_insertionSort laLe c) x hxtaken e (hperm.mem_iff.mpr hec) heno

theorem map_keep_of_no_match (c : List (CacheEntry α)) (k : String)
    (e : CacheEntry α) (h : ∀ y ∈ c, ¬ y.key = k) :
    (c.map fun x => if x.key == k then e else x) = c := by
  induction c with
  | nil => simp
  | cons a t ih =>
      have ha : ¬ a.key = k := h a (by simp)
      rw [List.map_cons, if_neg (by simp [ha]),
        ih fun y hy => h y (List.mem_cons_of_mem a hy)]

theorem totalSize_replace_le (c : List (CacheEntry α)) (k : String)
    (e : CacheEntry α) (hnd : (c.map CacheEntry.key).Nodup) :
    totalSize (c.map fun x => if x.key == k then e else x) ≤ totalSize c + e.size := by
  induction c with
  | nil => simp [totalSize]
  | cons a t ih =>
      simp only [List.map_cons, List.nodup_cons] at hnd
      rw [List.map_cons, totalSize_cons, totalSize_cons]
      by_cases ha : a.key = k
      · have hno : ∀ y ∈ t, ¬ y.key = k := by
          intro y hy hk
          exact hnd.1 (by rw [ha, ← hk]; exact List.mem_map_of_mem CacheEntry.key hy)
        rw [if_pos (by simp [ha]), map_keep_of_no_match t k e hno]
        omega
      · rw [if_neg (by simp [ha])]
        have := ih hnd.2
        omega

theorem totalSize_mapSet_le (c : List (CacheEntry α)) (k : String) (e : CacheEntry α)
    (hnd : (c.map CacheEntry.key).Nodup) :
    totalSize (mapSet c k e) ≤ totalSize c + e.size := by
  unfold mapSet
  by_cases hany : c.any (fun x => x.key == k)
  · simp only [hany, if_pos]
    exact totalSize_replace_le c k e hnd
  · simp only [hany, Bool.false_eq_true, if_neg]
    simp [totalSize]

theorem nodup_keys_mapSet (c : List (CacheEntry α)) (k : String) (e : CacheEntry α)
    (hke : e.key = k) (hnd : (c.map CacheEntry.key).Nodup) :
    ((mapSet c k e).map CacheEntry.key).Nodup := by
  unfold mapSet
  by_cases hany : c.any (fun x => x.key == k)
  · simp only [hany, if_pos]
    have : ((c.map fun x => if x.key == k then e else x).map CacheEntry.key)
        = c.map CacheEntry.key := by
      rw [List.map_map]
      refine List.map_congr_left fun x _ => ?_
      by_cases hx : x.key = k <;> simp [hx, hke]
    rw [this]
    exact hnd
  · rw [if_neg hany, List.map_append, List.map_cons, List.map_nil, hke]
    have hkn : k ∉ c.map CacheEntry.key := by
      intro hk
      rcases List.mem_map.mp hk with ⟨x, hx, hxk⟩
      exact hany (List.any_eq_true.mpr ⟨x, hx, by simp [hxk]⟩)
    refine List.Nodup.append hnd (List.nodup_singleton k) ?_
    intro a ha hak
    rw [List.mem_singleton] at hak
    exact hkn (hak ▸ ha)

theorem find_replace (k : String) (e : CacheEntry α) (hke : e.key = k) :
    ∀ c : List (CacheEntry α), (c.any fun x => x.key == k) = true →
      (c.map fun x => if x.key == k then e else x).find? (fun x => x.key == k)
        = some e := by
  intro c
  induction c with
  | nil =>
      intro h
      simp at h
  | cons a t ih =>
      intro hany
      rw [List.map_cons]
      by_cases ha : a.key = k
      · rw [if_pos (by simp [ha]), List.find?_cons_of_pos _ (by simp [hke])]
      · rw [if_neg (by simp [ha]), List.find?_cons_of_neg _ (by simp [ha])]
        apply ih
        simp only [List.any_cons] at hany
        simpa [ha] using hany

theorem findEntry_mapSet (c : List (CacheEntry α)) (k : String) (e : CacheEntry α)
    (hke : e.key = k) : findEntry (mapSet c k e) k = some e := by
  unfold mapSet findEntry
  by_cases hany : c.any (fun x => x.key == k)
  · rw [if_pos hany]
    exact find_replace k e hke c hany
  · rw [if_neg hany, List.find?_append]
    have hnone : c.find? (fun x => x.key == k) = none := by
      rw [List.find?_eq_none]
      intro x hx hbeq
      exact hany (List.any_eq_true.mpr ⟨x, hx, hbeq⟩)
    simp [hnone, hke]

/-- Serializer used to instantiate the payload type in concrete scenarios:
`mkStr n` is a string of `n` characters, so an entry built from payload `n`
gets `size = 2 * n`, exercising `calculateSize = stringify(data).length * 2`. -/
def mkStr (n : Nat) : String := String.mk (List.replicate n 'x')

theorem jsCalculateSize_mkStr : jsCalculateSize mkStr = fun n => 2 * n := by
  funext n
  simp [jsCalculateSize, mkStr, String.length, Nat.mul_comm]

theorem set_preserves (calcSize : α → Nat) (s : CacheState α) (k : String)
    (d : α) (ttl : Option Nat) (now : Nat)
    (hnd : (s.cache.map CacheEntry.key).Nodup)
    (htot : totalSize s.cache ≤ maxSize) (hsz : calcSize d ≤ maxSize) :
    (((set calcSize s k d ttl now).1.cache.map CacheEntry.key).Nodup ∧
      totalSize (set calcSize s k d ttl now).1.cache ≤ maxSize) := by
  obtain ⟨effT, hcache⟩ : ∃ effT, (set calcSize s k d ttl now).1.cache
      = mapSet (if maxSize < totalSize s.cache + calcSize d then
          evictLRU s.cache (calcSize d) else s.cache) k
        ⟨k, d, now, now + effT, calcSize d, 0, now⟩ := ⟨_, rfl⟩
  rw [hcache]
  by_cases hbig : maxSize < totalSize s.cache + calcSize d
  · rw [if_pos hbig]
    have hndE : ((evictLRU s.cache (calcSize d)).map CacheEntry.key).Nodup :=
      nodup_keys_evictLRU s.cache (calcSize d) hnd
    refine ⟨nodup_keys_mapSet _ k _ rfl hndE, ?_⟩
    have hle := totalSize_mapSet_le (evictLRU s.cache (calcSize d)) k
      ⟨k, d, now, now + effT, calcSize d, 0, now⟩ hndE
    dsimp only at hle
    rcases evictLRU_total s.cache (calcSize d) hnd with h | h
    · omega
    · rw [h] at hle ⊢
      have h0 : totalSize ([] : List (CacheEntry α)) = 0 := rfl
      rw [h0] at hle
      omega
  · rw [if_neg hbig]
    refine ⟨nodup_keys_mapSet _ k _ rfl hnd, ?_⟩
    have hle := totalSize_mapSet_le s.cache k
      ⟨k, d, now, now + effT, calcSize d, 0, now⟩ hnd
    dsimp only at hle
    omega

/-- C1, amended.  All mutating operations of `CacheManager` preserve the size
bound `totalSize ≤ maxSize`, with one proviso for `set`: the new entry itself
must fit (`calcSize d ≤ maxSize`).  `delete`, `clear` and the expiry sweep
preserve the bound unconditionally.  (The unamended claim fails because `set`
inserts the entry even when eviction could not free enough space; see the
counterexample.) -/
theorem c1_amended_bound : ∀ (α : Type) (calcSize : α → Nat) (s : CacheState α)
    (k : String) (d : α) (ttl : Option Nat) (now : Nat),
    (((s.cache.map CacheEntry.key).Nodup → totalSize s.cache ≤ maxSize →
        calcSize d ≤ maxSize →
        (((set calcSize s k d ttl now).1.cache.map CacheEntry.key).Nodup ∧
          totalSize (set calcSize s k d ttl now).1.cache ≤ maxSize)) ∧
      (totalSize s.cache ≤ maxSize →
        totalSize (deleteEntry s k).1.cache ≤ maxSize) ∧
      totalSize (clearCache s).cache ≤ maxSize ∧
      (totalSize s.cache ≤ maxSize →
        totalSize (cleanupSweep s now).cache ≤ maxSize)) := by
  intro α calcSize s k d ttl now
  refine ⟨fun hnd htot hsz => set_preserves calcSize s k d ttl now hnd htot hsz,
    fun htot => ?_, ?_, fun htot => ?_⟩
  · unfold deleteEntry
    match h : findEntry s.cache k with
    | none => exact htot
    | some e => exact le_trans (totalSize_filter_le _ s.cache) htot
  · simp [clearCache, totalSize]
  · exact le_trans (totalSize_filter_le _ s.cache) htot

/-- Witness for `c1_amended_bound` at a concrete small input. -/
theorem c1_witness :
    ((initCache Nat).cache.map CacheEntry.key).Nodup ∧
    totalSize (initCache Nat).cache ≤ maxSize ∧
    jsCalculateSize mkStr 3 ≤ maxSize ∧
    ((((set (jsCalculateSize mkStr) (initCache Nat) "a" 3 none 5).1.cache.map
        CacheEntry.key).Nodup) ∧
      totalSize (set (jsCalculateSize mkStr) (initCache Nat) "a" 3 none 5).1.cache
        ≤ maxSize) :=
  ⟨by decide, by decide, by decide,
    (c1_amended_bound Nat (jsCalculateSize mkStr) (initCache Nat) "a" 3 none 5).1
      (by decide) (by decide) (by decide)⟩

/-- C1, counterexample to the unamended claim.  A single `set` of an entry
whose estimated size (2 · 52428801 bytes) exceeds `maxSize` is NOT dropped:
the source inserts it unconditionally and returns `true`, leaving the cache
total above `maxSize` right after the mutating operation completed. -/
theorem c1_counterexample :
    maxSize <
      totalSize ((set (jsCalculateSize mkStr) (initCache Nat) "k" 52428801
        none 0).1.cache) ∧
    ((set (jsCalculateSize mkStr) (initCache Nat) "k" 52428801 none 0).1.cache.map
      CacheEntry.key) = ["k"] ∧
    (set (jsCalculateSize mkStr) (initCache Nat) "k" 52428801 none 0).2 = true := by
  rw [jsCalculateSize_mkStr]
  refine ⟨by decide, by decide, rfl⟩

/-- C4.  After `set(k, v, ttl)` at time `now1` with a nonzero `ttl`, a `get(k)`
at a time not later than `expiresAt = now1 + ttl` returns `v`, and a `get(k)`
after `expiresAt` has passed returns absent and increments the miss
counter. -/
theorem c4_ttl_expiry : ∀ (α : Type) (calcSize : α → Nat) (s : CacheState α)
    (k : String) (v : α) (t now1 now2 : Nat), 0 < t →
    ((now2 ≤ now1 + t →
        (get (set calcSize s k v (some t) now1).1 k now2).2 = some v) ∧
      (now1 + t < now2 →
        (get (set calcSize s k v (some t) now1).1 k now2).2 = none ∧
        (get (set calcSize s k v (some t) now1).1 k now2).1.misses
          = (set calcSize s k v (some t) now1).1.misses + 1)) := by
  intro α calcSize s k v t now1 now2 ht
  have ht' : ¬ t = 0 := Nat.pos_iff_ne_zero.mp ht
  have hcache : (set calcSize s k v (some t) now1).1.cache
      = mapSet (if maxSize < totalSize s.cache + calcSize v then
            evictLRU s.cache (calcSize v) else s.cache) k
          ⟨k, v, now1, now1 + t, calcSize v, 0, now1⟩ := by
    simp only [set]
    rw [if_neg ht']
  have hfind : findEntry (set calcSize s k v (some t) now1).1.cache k
      = some ⟨k, v, now1, now1 + t, calcSize v, 0, now1⟩ := by
    rw [hcache]
    exact findEntry_mapSet _ k _ rfl
  constructor
  · intro hle
    simp only [get, hfind]
    rw [if_neg (by omega)]
  · intro hlt
    simp only [get, hfind]
    rw [if_pos (by omega)]
    exact ⟨rfl, rfl⟩

/-- Witness for `c4_ttl_expiry`: a fresh hit at `now2 = 104 ≤ 100 + 5` and an
expired miss at `now2 = 106 > 100 + 5`. -/
theorem c4_witness :
    (0 < 5 ∧
      (get (set (fun _ : Nat => 0) (initCache Nat) "k" 7 (some 5) 100).1
        "k" 104).2 = some 7) ∧
    ((get (set (fun _ : Nat => 0) (initCache Nat) "k" 7 (some 5) 100).1
        "k" 106).2 = none ∧
      (get (set (fun _ : Nat => 0) (initCache Nat) "k" 7 (some 5) 100).1
        "k" 106).1.misses
        = (set (fun _ : Nat => 0) (initCache Nat) "k" 7 (some 5) 100).1.misses + 1) :=
  ⟨⟨by decide,
      (c4_ttl_expiry Nat (fun _ => 0) (initCache Nat) "k" 7 5 100 104
        (by decide)).1 (by decide)⟩,
    (c4_ttl_expiry Nat (fun _ => 0) (initCache Nat) "k" 7 5 100 106
      (by decide)).2 (by decide)⟩

/-- The LRU scenario of C5: insert A, B, C (times 1, 2, 3), access A via
`get` at time 4, then insert D at time 5, each entry 30 MB so that inserting
D forces exactly one eviction. -/
def lruScenario : CacheState Nat :=
  (set (jsCalculateSize mkStr)
    ((get (set (jsCalculateSize mkStr)
        ((set (jsCalculateSize mkStr)
          ((set (jsCalculateSize mkStr) (initCache Nat) "A" 15000000 none 1).1)
          "B" 15000000 none 2).1)
        "C" 15000000 none 3).1 "A" 4).1)
    "D" 15000000 none 5).1

/-- C5.  Eviction is pure LRU: every entry `evictLRU` removes has
`lastAccessed` at most that of every survivor, and the loop stops only once
the requested space is freed or the cache is empty.  Concretely, with A, B, C
inserted in that order and A then touched by `get`, inserting D evicts B (the
least recently accessed), not A. -/
theorem c5_lru_eviction :
    (∀ (α : Type) (c : List (CacheEntry α)) (r : Nat),
        (c.map CacheEntry.key).Nodup →
        ((∀ x ∈ c, x ∉ evictLRU c r →
            ∀ e ∈ evictLRU c r, x.lastAccessed ≤ e.lastAccessed) ∧
          (totalSize (evictLRU c r) + r ≤ totalSize c ∨ evictLRU c r = []))) ∧
    lruScenario.cache.map CacheEntry.key = ["A", "C", "D"] := by
  constructor
  · intro α c r hnd
    exact ⟨evictLRU_lru_order c r hnd, evictLRU_total c r hnd⟩
  · simp only [lruScenario, jsCalculateSize_mkStr]
    decide

/-- Witness for `c5_lru_eviction` at a concrete one-entry cache. -/
theorem c5_witness :
    (([(⟨"a", 0, 0, 9, 4, 0, 7⟩ : CacheEntry Nat)].map CacheEntry.key).Nodup) ∧
    ((∀ x ∈ [(⟨"a", 0, 0, 9, 4, 0, 7⟩ : CacheEntry Nat)],
        x ∉ evictLRU [(⟨"a", 0, 0, 9, 4, 0, 7⟩ : CacheEntry Nat)] 3 →
        ∀ e ∈ evictLRU [(⟨"a", 0, 0, 9, 4, 0, 7⟩ : CacheEntry Nat)] 3,
          x.lastAccessed ≤ e.lastAccessed) ∧
      (totalSize (evictLRU [(⟨"a", 0, 0, 9, 4, 0, 7⟩ : CacheEntry Nat)] 3) + 3
          ≤ totalSize [(⟨"a", 0, 0, 9, 4, 0, 7⟩ : CacheEntry Nat)] ∨
        evictLRU [(⟨"a", 0, 0, 9, 4, 0, 7⟩ : CacheEntry Nat)] 3 = [])) :=
  ⟨by decide, c5_lru_eviction.1 Nat [⟨"a", 0, 0, 9, 4, 0, 7⟩] 3 (by decide)⟩

/-- JSON values, standing for the fields of the `options` object passed to
`generateKey`; an object is its field list in property order. -/
inductive JVal where
  | str (s : String)
  | num (n : Int)
  | bool (b : Bool)
  | null
deriving DecidableEq

/-- Models `prompt.toLowerCase()` (ASCII case mapping). -/
def jsLower (s : String) : String := String.mk (s.data.map Char.toLower)

/-- The JS `WhiteSpace`/`LineTerminator` characters removed by `trim`. -/
def jsWhitespaceChar (c : Char) : Bool :=
  c == ' ' || c == '\t' || c == '\n' || c == '\r' ||
    c.toNat == 11 || c.toNat == 12 || c.toNat == 160 ||
    c.toNat == 0x2028 || c.toNat == 0x2029 || c.toNat == 0xFEFF

/-- Models `String.prototype.trim()`: strip leading and trailing whitespace. -/
def jsTrim (s : String) : String :=
  String.mk
    (((s.data.dropWhile jsWhitespaceChar).reverse.dropWhile jsWhitespaceChar).reverse)

def hexDigitChar (n : Nat) : Char :=
  if n < 10 then Char.ofNat (48 + n) else Char.ofNat (87 + n)

/-- Models `JSON.stringify` escaping of a single character inside a string. -/
def escChar (c : Char) : String :=
  if c == '"' then "\\\""
  else if c == '\\' then "\\\\"
  else if c == '\n' then "\\n"
  else if c == '\r' then "\\r"
  else if c == '\t' then "\\t"
  else if c.toNat == 8 then "\\b"
  else if c.toNat == 12 then "\\f"
  else if c.toNat < 32 then
    "\\u00" ++ String.mk [hexDigitChar (c.toNat / 16), hexDigitChar (c.toNat % 16)]
  else String.singleton c

def jsonEscape (s : String) : String := String.join (s.data.map escChar)

/-- Models `JSON.stringify` of a primitive value. -/
def jvalStr : JVal → String
  | .str s => "\"" ++ jsonEscape s ++ "\""
  | .num n => toString n
  | .bool true => "true"
  | .bool false => "false"
  | .null => "null"

/-- Models `JSON.stringify` of an object: fields in property order, no spacing. -/
def objStringify (fields : List (String × JVal)) : String :=
  "\x7b" ++ String.intercalate "," (fields.map (fun kv =>
    "\"" ++ jsonEscape kv.1 ++ "\":" ++ jvalStr kv.2)) ++ "\x7d"

/-- Adding a property to an object literal: a duplicate property name
overwrites the value in place (keeping the first position), a new name is
appended. -/
def objUpsert (o : List (String × JVal)) (kv : String × JVal) :
    List (String × JVal) :=
  if o.any (fun p => p.1 == kv.1) then
    o.map (fun p => if p.1 == kv.1 then (p.1, kv.2) else p)
  else o ++ [kv]

/-- The base64 alphabet character for a 6-bit value. -/
def b64Char (n : Nat) : Char :=
  "ABCDEFGHIJKLMNOPQRSTUVWXYZabcdefghijklmnopqrstuvwxyz0123456789+/".data.getD n 'A'

/-- Standard base64: 3 input bytes per 4 output characters, `=`-padded. -/
def b64Chunks : List Nat → String
  | [] => ""
  | [a] => String.mk [b64Char (a / 4), b64Char (a % 4 * 16)] ++ "=="
  | [a, b] =>
      String.mk [b64Char (a / 4), b64Char (a % 4 * 16 + b / 16),
        b64Char (b % 16 * 4)] ++ "="
  | a :: b :: c :: rest =>
      String.mk [b64Char (a / 4), b64Char (a % 4 * 16 + b / 16),
        b64Char (b % 16 * 4 + c / 64), b64Char (c % 64)] ++ b64Chunks rest

/-- Models `btoa` on a latin-1 string: base64 of its code units. -/
def btoa (s : String) : String := b64Chunks (s.data.map Char.toNat)

/-- The encoding stage of `generateKey`, applied to the already-normalized
prompt: build `{ prompt: ..., ...options }`, `JSON.stringify` it, `btoa` the
result and strip the characters `+`, `/`, `=`. -/
def keyOfNormalized (normPrompt : String) (options : List (String × JVal)) :
    String :=
  String.mk ((btoa (objStringify (options.foldl objUpsert
    [("prompt", JVal.str normPrompt)]))).data.filter
      (fun c => !(c == '+' || c == '/' || c == '=')))

/-- Models `generateKey(prompt, options)`. -/
def generateKey (prompt : String) (options : List (String × JVal)) : String :=
  keyOfNormalized (jsTrim (jsLower prompt)) options

/-- C9, amended.  `generateKey` normalizes the prompt (lowercased, trimmed),
merges it with the options and deterministically encodes the result, so any
two prompts equal modulo case and surrounding whitespace produce the same key
for identical options; but the encoding is base64 of the JSON text, whose
length grows with the input — the key is NOT fixed-length (see the
counterexample). -/
theorem c9_amended_determinism :
    (∀ (p1 p2 : String) (options : List (String × JVal)),
        jsTrim (jsLower p1) = jsTrim (jsLower p2) →
        generateKey p1 options = generateKey p2 options) ∧
    generateKey "A cat" [("q", JVal.num 1)]
      = generateKey "a cat " [("q", JVal.num 1)] := by
  have hcong : ∀ (p1 p2 : String) (options : List (String × JVal)),
      jsTrim (jsLower p1) = jsTrim (jsLower p2) →
      generateKey p1 options = generateKey p2 options := by
    intro p1 p2 options h
    unfold generateKey
    rw [h]
  exact ⟨hcong, hcong "A cat" "a cat " [("q", JVal.num 1)] (by decide)⟩

/-- Witness for `c9_amended_determinism` at a further concrete input pair. -/
theorem c9_witness :
    jsTrim (jsLower "A CAT") = jsTrim (jsLower "  a cat") ∧
    generateKey "A CAT" [] = generateKey "  a cat" [] :=
  ⟨by decide, c9_amended_determinism.1 "A CAT" "  a cat" [] (by decide)⟩

/-- C9, counterexample to the fixed-length conjunct: the keys of a 1-character
prompt and of a 20-character prompt have different lengths, so the encoding is
not fixed-length. -/
theorem c9_counterexample :
    (generateKey "a" []).length ≠ (generateKey "aaaaaaaaaaaaaaaaaaaa" []).length := by
  decide

end CacheManager

namespace VideoQueueManager

/-- Models `priority: 'low' | 'normal' | 'high'`. -/
inductive Priority where
  | low
  | normal
  | high
deriving DecidableEq

/-- Models `status: 'queued' | 'processing' | 'completed' | 'failed'`. -/
inductive QStatus where
  | queued
  | processing
  | completed
  | failed
deriving DecidableEq

/-- One `QueueItem`.  The id is modelled as a `Nat` drawn from a fresh-id
counter (the source generates `queue_${Date.now()}_${random}` strings, whose
only used property is uniqueness).  The opaque `options` payload is carried as
a string; the queue never reads it. -/
structure QueueItem where
  id : Nat
  prompt : String
  options : String
  priority : Priority
  status : QStatus
  progress : Nat
  estimatedTime : Nat
  createdAt : Nat
  startedAt : Option Nat
  completedAt : Option Nat
deriving DecidableEq

/-- The state of a `VideoQueueManager`.  Queue and processing map hold
references to shared item objects; the model makes the sharing explicit with
an id-indexed object store, `queue` and `processing` holding ids in their
JS iteration order. -/
structure QState where
  queue : List Nat
  processing : List Nat
  maxConcurrent : Nat
  store : Nat → Option QueueItem
  nextId : Nat

/-- The state built by the constructor when nothing was persisted. -/
def qInit : QState := ⟨[], [], 3, fun _ => none, 0⟩

/-- Update the shared object store at one id. -/
def stUpdate (st : Nat → Option QueueItem) (id : Nat) (it : QueueItem) :
    Nat → Option QueueItem :=
  fun j => if j = id then some it else st j

/-- Models `priorityOrder = { high: 0, normal: 1, low: 2 }`. -/
def priorityRank : Priority → Nat
  | .high => 0
  | .normal => 1
  | .low => 2

/-- Rank of the item an id refers to (ids in the queue always resolve). -/
def rankOf (s : QState) (id : Nat) : Nat :=
  match s.store id with
  | some it => priorityRank it.priority
  | none => 3

/-- The scan of `findInsertIndex`: index of the first queue position whose
item has a strictly greater rank (lower priority), else the length. -/
def findInsertGo (s : QState) (target : Nat) : List Nat → Nat
  | [] => 0
  | id :: t => if target < rankOf s id then 0 else findInsertGo s target t + 1

/-- Models `private findInsertIndex(priority)`. -/
def findInsertIndex (s : QState) (p : Priority) : Nat :=
  findInsertGo s (priorityRank p) s.queue

/-- Models `splice(index, 0, a)`: insert at an index (append when out of range). -/
def insertAt (i : Nat) (a : Nat) : List Nat → List Nat :=
  match i with
  | 0 => fun l => a :: l
  | i + 1 => fun l =>
      match l with
      | [] => [a]
      | x :: t => x :: insertAt i a t

/-- Models `this.queue.find(item => item.status === 'queued')`. -/
def firstQueued (s : QState) : List Nat → Option Nat
  | [] => none
  | id :: t =>
      match s.store id with
      | some it => if it.status = .queued then some id else firstQueued s t
      | none => firstQueued s t

/-- Set the status of the shared item object an id refers to. -/
def setStatusProcessing (s : QState) (id : Nat) : QState :=
  match s.store id with
  | some it => { s with store := stUpdate s.store id { it with status := .processing } }
  | none => s

/-- Models `private async processNext()`: if below the concurrency cap, admit the
first queued item — mark it `processing` and put it in the processing map
(`Map.set` adds nothing when the key is already present). -/
def processNext (s : QState) : QState :=
  if s.maxConcurrent ≤ s.processing.length then s
  else
    match firstQueued s s.queue with
    | none => s
    | some id =>
        let s1 := setStatusProcessing s id
        { s1 with
            processing := if s1.processing.contains id then s1.processing
                          else s1.processing ++ [id] }

/-- The insertion phase of `add`: build the item with a fresh id, `status =
queued`, `progress = 0`, and splice it into the queue at the priority
position (computed on the pre-insertion queue). -/
def addInsert (s : QState) (prompt options : String) (p : Priority)
    (est : Nat) (now : Nat) : QState :=
  let id := s.nextId
  let item : QueueItem := ⟨id, prompt, options, p, .queued, 0, est, now, none, none⟩
  { s with
      queue := insertAt (findInsertIndex s p) id s.queue,
      store := stUpdate s.store id item,
      nextId := id + 1 }

/-- Models `add(item)`: insert, then attempt admission; returns the fresh id. -/
def add (s : QState) (prompt options : String) (p : Priority) (est : Nat)
    (now : Nat) : QState × Nat :=
  (processNext (addInsert s prompt options p est now), s.nextId)

/-- Models `remove(id)`: delete from the queue list and from the processing map;
`false` when the id is not in the queue list. -/
def remove (s : QState) (id : Nat) : QState × Bool :=
  if s.queue.contains id then
    ({ s with queue := s.queue.erase id, processing := s.processing.erase id },
      true)
  else (s, false)

/-- Models `updateProgress(id, progress, status?)`: no-op when the id resolves in
neither the queue nor the processing map; otherwise mutate the shared item,
stamp `startedAt` on a first transition to `processing`, and on a terminal
status stamp `completedAt`, drop the id from the processing map and run
`processNext`. -/
def updateProgress (s : QState) (id : Nat) (progress : Nat)
    (status : Option QStatus) (now : Nat) : QState :=
  if s.queue.contains id || s.processing.contains id then
    match s.store id with
    | none => s
    | some it =>
        let it1 := { it with progress := progress,
                             status := status.getD it.status }
        let it2 := if status = some .processing ∧ it.startedAt = none then
                     { it1 with startedAt := some now }
                   else it1
        let isTerm := status = some .completed ∨ status = some .failed
        let it3 := if isTerm then { it2 with completedAt := some now } else it2
        let s1 := { s with store := stUpdate s.store id it3 }
        if isTerm then
          processNext { s1 with processing := s1.processing.erase id }
        else s1
  else s

/-- Models `clearCompleted()`: drop terminal-state items from the queue list. -/
def clearCompleted (s : QState) : QState :=
  { s with
      queue := s.queue.filter (fun id =>
        match s.store id with
        | some it => !(it.status == .completed || it.status == .failed)
        | none => true) }

/-- Number of queue-list items whose status is `queued`. -/
def countQueued (s : QState) : Nat :=
  (s.queue.filter (fun id =>
    match s.store id with
    | some it => it.status == .queued
    | none => false)).length

/-- The record returned by `getStatus()`. -/
structure StatusView where
  queued : Nat
  processing : Nat
  total : Nat
  estimatedWaitTime : Nat
deriving DecidableEq

/-- Models `getStatus()`: `estimatedWaitTime = queuedCount * 45` seconds. -/
def getStatus (s : QState) : StatusView :=
  ⟨countQueued s, s.processing.length, s.queue.length, countQueued s * 45⟩

/-- Models `getAll()`: queue-list snapshot followed by the processing-map values. -/
def getAll (s : QState) : List QueueItem :=
  s.queue.filterMap s.store ++ s.processing.filterMap s.store

/-- The states reachable from the freshly constructed manager by its public
mutating operations. -/
inductive QReachable : QState → Prop where
  | init : QReachable qInit
  | add {s} (prompt options : String) (p : Priority) (est now : Nat) :
      QReachable s → QReachable (add s prompt options p est now).1
  | remove {s} (id : Nat) : QReachable s → QReachable (remove s id).1
  | update {s} (id progress : Nat) (status : Option QStatus) (now : Nat) :
      QReachable s → QReachable (updateProgress s id progress status now)
  | clear {s} : QReachable s → QReachable (clearCompleted s)

/-- The structural well-formedness every reachable `VideoQueueManager` state
enjoys: the concurrency cap is respected, the processing map holds distinct
ids of items that are still in the queue list and not in a terminal state,
queue ids are distinct, resolve in the object store, and are below the fresh
id counter, stored items carry their own id, and the cap is the default 3. -/
structure QWF (s : QState) : Prop where
  procLe : s.processing.length ≤ s.maxConcurrent
  procSubQueue : ∀ id ∈ s.processing, id ∈ s.queue
  procNodup : s.processing.Nodup
  queueNodup : s.queue.Nodup
  storeDefined : ∀ id ∈ s.queue, (s.store id).isSome
  idsFresh : ∀ id ∈ s.queue, id < s.nextId
  procActive : ∀ id ∈ s.processing, ∀ it, s.store id = some it →
      it.status ≠ QStatus.completed ∧ it.status ≠ QStatus.failed
  storeId : ∀ id it, s.store id = some it → it.id = id
  maxcc : s.maxConcurrent = 3

theorem stUpdate_self (st : Nat → Option QueueItem) (id : Nat) (it : QueueItem) :
    stUpdate st id it id = some it := if_pos rfl

theorem stUpdate_ne (st : Nat → Option QueueItem) (id j : Nat) (it : QueueItem)
    (h : j ≠ id) : stUpdate st id it j = st j := if_neg h

theorem insertAt_perm (a : Nat) :
    ∀ (i : Nat) (l : List Nat), List.Perm (insertAt i a l) (a :: l)
  | 0, l => List.Perm.refl _
  | i + 1, [] => List.Perm.refl _
  | i + 1, x :: t =>
      ((insertAt_perm a i t).cons x).trans (List.Perm.swap a x t)

theorem mem_insertAt {a b : Nat} {i : Nat} {l : List Nat} :
    b ∈ insertAt i a l ↔ b = a ∨ b ∈ l := by
  rw [(insertAt_perm a i l).mem_iff, List.mem_cons]

theorem firstQueued_mem (s : QState) :
    ∀ (l : List Nat) (id : Nat), firstQueued s l = some id → id ∈ l := by
  intro l
  induction l with
  | nil => intro id h; simp [firstQueued] at h
  | cons x t ih =>
      intro id h
      cases hst : s.store x with
      | none =>
          simp only [firstQueued, hst] at h
          exact List.mem_cons_of_mem x (ih id h)
      | some it =>
          simp only [firstQueued, hst] at h
          by_cases hq : it.status = QStatus.queued
          · rw [if_pos hq] at h
            cases h
            exact List.mem_cons_self x t
          · rw [if_neg hq] at h
            exact List.mem_cons_of_mem x (ih id h)

theorem firstQueued_store (s : QState) :
    ∀ (l : List Nat) (id : Nat), firstQueued s l = some id →
      ∃ it, s.store id = some it ∧ it.status = QStatus.queued := by
  intro l
  induction l with
  | nil => intro id h; simp [firstQueued] at h
  | cons x t ih =>
      intro id h
      cases hst : s.store x with
      | none =>
          simp only [firstQueued, hst] at h
          exact ih id h
      | some it =>
          simp only [firstQueued, hst] at h
          by_cases hq : it.status = QStatus.queued
          · rw [if_pos hq] at h
            cases h
            exact ⟨it, hst, hq⟩
          · rw [if_neg hq] at h
            exact ih id h

theorem qwf_processNext {s : QState} (h : QWF s) : QWF (processNext s) := by
  unfold processNext
  by_cases hcap : s.maxConcurrent ≤ s.processing.length
  · rw [if_pos hcap]
    exact h
  · rw [if_neg hcap]
    cases hfq : firstQueued s s.queue with
    | none => exact h
    | some id =>
        dsimp only
        obtain ⟨it, hst, hq⟩ := firstQueued_store s s.queue id hfq
        have hidq : id ∈ s.queue := firstQueued_mem s s.queue id hfq
        have hset : setStatusProcessing s id =
            { s with store := stUpdate s.store id { it with status := .processing } } := by
          unfold setStatusProcessing
          rw [hst]
        rw [hset]
        by_cases hin : s.processing.contains id
        · rw [if_pos hin]
          refine ⟨h.procLe, h.procSubQueue, h.procNodup, h.queueNodup, ?_, h.idsFresh,
            ?_, ?_, h.maxcc⟩
          · dsimp only
            intro j hj
            by_cases hji : j = id
            · subst hji; rw [stUpdate_self]; rfl
            · rw [stUpdate_ne _ _ _ _ hji]; exact h.storeDefined j hj
          · dsimp only
            intro j hj jt hjt
            by_cases hji : j = id
            · subst hji
              rw [stUpdate_self] at hjt
              cases hjt
              exact ⟨by simp, by simp⟩
            · rw [stUpdate_ne _ _ _ _ hji] at hjt
              exact h.procActive j hj jt hjt
          · dsimp only
            intro j jt hjt
            by_cases hji : j = id
            · subst hji
              rw [stUpdate_self] at hjt
              cases hjt
              simpa using h.storeId j it hst
            · rw [stUpdate_ne _ _ _ _ hji] at hjt
              exact h.storeId j jt hjt
        · rw [if_neg hin]
          have hnotmem : id ∉ s.processing := fun hm =>
            hin (List.elem_eq_true_of_mem hm)
          refine ⟨?_, ?_, ?_, h.queueNodup, ?_, h.idsFresh, ?_, ?_, h.maxcc⟩
          · dsimp only
            simp only [List.length_append, List.length_singleton]
            omega
          · dsimp only
            intro j hj
            rcases List.mem_append.mp hj with hj | hj
            · exact h.procSubQueue j hj
            · rw [List.mem_singleton] at hj
              exact hj ▸ hidq
          · dsimp only
            refine List.Nodup.append h.procNodup (List.nodup_singleton id) ?_
            intro x hx hxa
            rw [List.mem_singleton] at hxa
            exact hnotmem (hxa ▸ hx)
          · dsimp only
            intro j hj
            by_cases hji : j = id
            · subst hji; rw [stUpdate_self]; rfl
            · rw [stUpdate_ne _ _ _ _ hji]; exact h.storeDefined j hj
          · dsimp only
            intro j hj jt hjt
            by_cases hji : j = id
            · subst hji
              rw [stUpdate_self] at hjt
              cases hjt
              exact ⟨by simp, by simp⟩
            · rw [stUpdate_ne _ _ _ _ hji] at hjt
              rcases List.mem_append.mp hj with hj | hj
              · exact h.procActive j hj jt hjt
              · rw [List.mem_singleton] at hj
                exact absurd hj hji
          · dsimp only
            intro j jt hjt
            by_cases hji : j = id
            · subst hji
              rw [stUpdate_self] at hjt
              cases hjt
              simpa using h.storeId j it hst
            · rw [stUpdate_ne _ _ _ _ hji] at hjt
              exact h.storeId j jt hjt

theorem qwf_addInsert {s : QState} (h : QWF s) (prompt options : String)
    (p : Priority) (est now : Nat) : QWF (addInsert s prompt options p est now) := by
  have hfresh : s.nextId ∉ s.queue := fun hm =>
    Nat.lt_irrefl s.nextId (h.idsFresh s.nextId hm)
  unfold addInsert
  refine ⟨h.procLe, ?_, h.procNodup, ?_, ?_, ?_, ?_, ?_, h.maxcc⟩
  · intro j hj
    exact mem_insertAt.mpr (Or.inr (h.procSubQueue j hj))
  · exact ((insertAt_perm s.nextId _ s.queue).nodup_iff).mpr
      (List.nodup_cons.mpr ⟨hfresh, h.queueNodup⟩)
  · dsimp only
    intro j hj
    rcases mem_insertAt.mp hj with rfl | hj
    · rw [stUpdate_self]; rfl
    · have hji : j ≠ s.nextId := Nat.ne_of_lt (h.idsFresh j hj)
      rw [stUpdate_ne _ _ _ _ hji]
      exact h.storeDefined j hj
  · dsimp only
    intro j hj
    rcases mem_insertAt.mp hj with rfl | hj
    · simp
    · exact Nat.lt_succ_of_lt (h.idsFresh j hj)
  · dsimp only
    intro j hj jt hjt
    have hjq : j ∈ s.queue := h.procSubQueue j hj
    have hji : j ≠ s.nextId := Nat.ne_of_lt (h.idsFresh j hjq)
    rw [stUpdate_ne _ _ _ _ hji] at hjt
    exact h.procActive j hj jt hjt
  · dsimp only
    intro j jt hjt
    by_cases hji : j = s.nextId
    · subst hji
      rw [stUpdate_self] at hjt
      cases hjt
      rfl
    · rw [stUpdate_ne _ _ _ _ hji] at hjt
      exact h.storeId j jt hjt

theorem qwf_add {s : QState} (h : QWF s) (prompt options : String) (p : Priority)
    (est now : Nat) : QWF (add s prompt options p est now).1 :=
  qwf_processNext (qwf_addInsert h prompt options p est now)

theorem qwf_remove {s : QState} (h : QWF s) (id : Nat) : QWF (remove s id).1 := by
  unfold remove
  by_cases hin : s.queue.contains id
  · rw [if_pos hin]
    refine ⟨le_trans (List.erase_sublist id s.processing).length_le h.procLe, ?_,
      (List.erase_sublist id s.processing).nodup h.procNodup,
      (List.erase_sublist id s.queue).nodup h.queueNodup, ?_, ?_, ?_, h.storeId,
      h.maxcc⟩
    · intro j hj
      obtain ⟨hji, hjp⟩ := (List.Nodup.mem_erase_iff h.procNodup).mp hj
      exact (List.mem_erase_of_ne hji).mpr (h.procSubQueue j hjp)
    · intro j hj
      exact h.storeDefined j ((List.erase_sublist id s.queue).subset hj)
    · intro j hj
      exact h.idsFresh j ((List.erase_sublist id s.queue).subset hj)
    · intro j hj jt hjt
      exact h.procActive j ((List.erase_sublist id s.processing).subset hj) jt hjt
  · rw [if_neg hin]
    exact h

theorem qwf_updateProgress {s : QState} (h : QWF s) (id progress : Nat)
    (status : Option QStatus) (now : Nat) :
    QWF (updateProgress s id progress status now) := by
  unfold updateProgress
  by_cases hfound : s.queue.contains id || s.processing.contains id
  · rw [if_pos hfound]
    cases hst : s.store id with
    | none => exact h
    | some it =>
        dsimp only
        by_cases hterm : status = some QStatus.completed ∨ status = some QStatus.failed
        · rw [if_pos hterm]
          apply qwf_processNext
          refine ⟨le_trans (List.erase_sublist id _).length_le h.procLe, ?_, ?_, h.queueNodup,
            ?_, h.idsFresh, ?_, ?_, h.maxcc⟩
          · dsimp only
            intro j hj
            obtain ⟨hji, hjp⟩ := (List.Nodup.mem_erase_iff h.procNodup).mp hj
            exact h.procSubQueue j hjp
          · exact (List.erase_sublist id _).nodup h.procNodup
          · dsimp only
            intro j hj
            by_cases hji : j = id
            · subst hji; rw [stUpdate_self]; rfl
            · rw [stUpdate_ne _ _ _ _ hji]; exact h.storeDefined j hj
          · dsimp only
            intro j hj jt hjt
            obtain ⟨hji, hjp⟩ := (List.Nodup.mem_erase_iff h.procNodup).mp hj
            rw [stUpdate_ne _ _ _ _ hji] at hjt
            exact h.procActive j hjp jt hjt
          · dsimp only
            intro j jt hjt
            by_cases hji : j = id
            · subst hji
              rw [stUpdate_self] at hjt
              cases hjt
              by_cases hss : status = some QStatus.processing ∧ it.startedAt = none
              · simpa [hterm, hss] using h.storeId j it hst
              · simpa [hterm, hss] using h.storeId j it hst
            · rw [stUpdate_ne _ _ _ _ hji] at hjt
              exact h.storeId j jt hjt
        · rw [if_neg hterm]
          push_neg at hterm
          refine ⟨h.procLe, h.procSubQueue, h.procNodup, h.queueNodup, ?_, h.idsFresh,
            ?_, ?_, h.maxcc⟩
          · dsimp only
            intro j hj
            by_cases hji : j = id
            · subst hji; rw [stUpdate_self]; rfl
            · rw [stUpdate_ne _ _ _ _ hji]; exact h.storeDefined j hj
          · dsimp only
            intro j hj jt hjt
            by_cases hji : j = id
            · subst hji
              rw [stUpdate_self] at hjt
              cases hjt
              have hold := h.procActive j hj it hst
              have hgd : status.getD it.status ≠ QStatus.completed ∧
                  status.getD it.status ≠ QStatus.failed := by
                cases status with
                | none => simpa using hold
                | some st =>
                    refine ⟨fun hc => hterm.1 ?_, fun hc => hterm.2 ?_⟩
                    · simp only [Option.getD_some] at hc
                      simp [hc]
                    · simp only [Option.getD_some] at hc
                      simp [hc]
              by_cases hss : status = some QStatus.processing ∧ it.startedAt = none
              · simpa [hterm.1, hterm.2, hss] using hgd
              · simpa [hterm.1, hterm.2, hss] using hgd
            · rw [stUpdate_ne _ _ _ _ hji] at hjt
              exact h.procActive j hj jt hjt
          · dsimp only
            intro j jt hjt
            by_cases hji : j = id
            · subst hji
              rw [stUpdate_self] at hjt
              cases hjt
              have := h.storeId j it hst
              by_cases hss : status = some QStatus.processing ∧ it.startedAt = none
              · simp [hterm.1, hterm.2, hss, this]
              · simp [hterm.1, hterm.2, hss, this]
            · rw [stUpdate_ne _ _ _ _ hji] at hjt
              exact h.storeId j jt hjt
  · rw [if_neg hfound]
    exact h

theorem qwf_clearCompleted {s : QState} (h : QWF s) : QWF (clearCompleted s) := by
  unfold clearCompleted
  refine ⟨h.procLe, ?_, h.procNodup, ?_, ?_, ?_, h.procActive, h.storeId, h.maxcc⟩
  · intro j hj
    have hjq : j ∈ s.queue := h.procSubQueue j hj
    refine List.mem_filter.mpr ⟨hjq, ?_⟩
    have hdef := h.storeDefined j hjq
    cases hst : s.store j with
    | none => simp [hst] at hdef
    | some it =>
        have hact := h.procActive j hj it hst
        simp [hact.1, hact.2]
  · exact (List.filter_sublist s.queue).nodup h.queueNodup
  · intro j hj
    exact h.storeDefined j ((List.filter_sublist s.queue).subset hj)
  · intro j hj
    exact h.idsFresh j ((List.filter_sublist s.queue).subset hj)

/-- Every reachable state satisfies the structural invariant. -/
theorem qwf_reachable {s : QState} (h : QReachable s) : QWF s := by
  induction h with
  | init =>
      exact ⟨by simp [qInit], by simp [qInit], by simp [qInit], by simp [qInit],
        by simp [qInit], by simp [qInit], by simp [qInit], by simp [qInit], rfl⟩
  | add prompt options p est now _ ih => exact qwf_add ih prompt options p est now
  | remove id _ ih => exact qwf_remove ih id
  | update id progress status now _ ih =>
      exact qwf_updateProgress ih id progress status now
  | clear _ ih => exact qwf_clearCompleted ih

end VideoQueueManager

namespace PerformanceOptimizer

/-- Models `PerformanceMetrics`; the JS numbers are modelled as exact rationals. -/
structure PerformanceMetrics where
  avgTime : ℚ
  totalProcessed : Nat
  successRate : ℚ
  errorRate : ℚ
  throughput : ℚ
  queueLength : ℚ
deriving DecidableEq

/-- Models `quality: 'auto' | 'speed' | 'balanced' | 'quality'`. -/
inductive QualityPolicy where
  | auto
  | speed
  | balanced
  | quality
deriving DecidableEq

/-- Models `OptimizationSettings`. -/
structure OptimizationSettings where
  quality : QualityPolicy
  enablePreProcessing : Bool
  enablePostProcessing : Bool
  enableParallelProcessing : Bool
  maxConcurrentRequests : Nat
  timeoutMs : Nat
deriving DecidableEq

/-- The metrics the constructor installs. -/
def initialMetrics : PerformanceMetrics := ⟨0, 0, 100, 0, 0, 0⟩

/-- The settings the constructor installs. -/
def defaultSettings : OptimizationSettings := ⟨.balanced, true, true, true, 3, 300000⟩

/-- The mutable state of a `PerformanceOptimizer`. -/
structure OptState where
  metrics : PerformanceMetrics
  settings : OptimizationSettings
  processingTimes : List ℚ
deriving DecidableEq

def optInit : OptState := ⟨initialMetrics, defaultSettings, []⟩

/-- Models `private maxHistorySize = 100`. -/
def maxHistorySize : Nat := 100

/-- Models `Math.round`: `floor(x + 1/2)`, which is exactly the JS rounding rule on
the reals (including negative halves rounding up). -/
def jsRound (q : ℚ) : ℤ := Int.fdiv (q + 1 / 2).num ((q + 1 / 2).den : ℤ)

/-- Models `private calculateAverageTime()`: 0 on an empty history, else the rounded
arithmetic mean. -/
def calculateAverageTime (times : List ℚ) : ℚ :=
  if times.isEmpty then 0
  else ((jsRound (times.sum / (times.length : ℚ)) : ℤ) : ℚ)

/-- Models `private calculateThroughput()`: videos per hour, 0 when `avgTime` is 0. -/
def calculateThroughput (avg : ℚ) : ℚ :=
  if avg = 0 then 0 else ((jsRound (3600 / avg) : ℤ) : ℚ)

/-- Models `recordProcessingTime(timeMs, success)`: push `timeMs/1000` onto the
rolling history (dropping the oldest sample past 100), bump `totalProcessed`,
recompute `avgTime` and `throughput`, and update the rate matching the
outcome by the incremental running average — on success only `successRate`,
on failure only `errorRate`. -/
def recordProcessingTime (s : OptState) (timeMs : ℚ) (success : Bool) :
    OptState :=
  let times1 := s.processingTimes ++ [timeMs / 1000]
  let times2 := if maxHistorySize < times1.length then times1.drop 1 else times1
  let n := s.metrics.totalProcessed + 1
  let avg := calculateAverageTime times2
  let sr := if success then
      (s.metrics.successRate * ((n : ℚ) - 1) + 100) / (n : ℚ)
    else s.metrics.successRate
  let er := if success then s.metrics.errorRate
    else (s.metrics.errorRate * ((n : ℚ) - 1) + 100) / (n : ℚ)
  { s with
      metrics := { s.metrics with
        totalProcessed := n, avgTime := avg, successRate := sr, errorRate := er,
        throughput := calculateThroughput avg },
      processingTimes := times2 }

/-- C8, amended.  Every call increments `totalProcessed`, and the rate
matching the outcome is updated by the incremental weighted running average
`(oldRate * (n-1) + 100) / n` with `n` the incremented count, while the other
rate is left untouched — the code never applies the formula with indicator 0
(see the counterexample against the claim's both-rates reading). -/
theorem c8_amended_rates : ∀ (s : OptState) (timeMs : ℚ) (success : Bool),
    (recordProcessingTime s timeMs success).metrics.totalProcessed
        = s.metrics.totalProcessed + 1 ∧
    (recordProcessingTime s timeMs success).metrics.successRate
        = (if success then
            (s.metrics.successRate * (s.metrics.totalProcessed : ℚ) + 100)
              / ((s.metrics.totalProcessed : ℚ) + 1)
          else s.metrics.successRate) ∧
    (recordProcessingTime s timeMs success).metrics.errorRate
        = (if success then s.metrics.errorRate
          else (s.metrics.errorRate * (s.metrics.totalProcessed : ℚ) + 100)
            / ((s.metrics.totalProcessed : ℚ) + 1)) := by
  intro s timeMs success
  have htp : ((s.metrics.totalProcessed + 1 : Nat) : ℚ)
      = (s.metrics.totalProcessed : ℚ) + 1 := by push_cast; ring
  cases success with
  | false =>
      refine ⟨rfl, rfl, ?_⟩
      show (s.metrics.errorRate * (((s.metrics.totalProcessed + 1 : Nat) : ℚ) - 1)
            + 100) / ((s.metrics.totalProcessed + 1 : Nat) : ℚ)
          = (s.metrics.errorRate * (s.metrics.totalProcessed : ℚ) + 100)
            / ((s.metrics.totalProcessed : ℚ) + 1)
      rw [htp]
      ring_nf
  | true =>
      refine ⟨rfl, ?_, rfl⟩
      show (s.metrics.successRate * (((s.metrics.totalProcessed + 1 : Nat) : ℚ) - 1)
            + 100) / ((s.metrics.totalProcessed + 1 : Nat) : ℚ)
          = (s.metrics.successRate * (s.metrics.totalProcessed : ℚ) + 100)
            / ((s.metrics.totalProcessed : ℚ) + 1)
      rw [htp]
      ring_nf

/-- The rate update exactly as the claim words it: on every call BOTH
`successRate` and `errorRate` become
`(oldRate * (n-1) + (success ? 100 : 0)) / n` with `n = totalProcessed` after
the increment. -/
def recordRatesClaim (m : PerformanceMetrics) (success : Bool) : ℚ × ℚ :=
  let n : ℚ := (m.totalProcessed : ℚ) + 1
  let ind : ℚ := if success then 100 else 0
  ((m.successRate * (n - 1) + ind) / n, (m.errorRate * (n - 1) + ind) / n)

/-- C8, counterexample.  One failed call from the initial metrics: the
claim's formula demands `successRate = (100·0 + 0)/1 = 0`, but the code
leaves `successRate` at 100 — on a failure only `errorRate` is touched. -/
theorem c8_counterexample :
    (recordProcessingTime optInit 5000 false).metrics.successRate = 100 ∧
    (recordRatesClaim initialMetrics false).1 = 0 ∧ (100 : ℚ) ≠ 0 := by
  refine ⟨rfl, ?_, by norm_num⟩
  norm_num [recordRatesClaim, initialMetrics]

/-- The nested `options` object of a request descriptor. -/
structure VideoOptions where
  bitrate : String
  fps : ℚ
  quality : String
deriving DecidableEq

/-- A request descriptor: the fields `optimizeParameters` touches, plus
`prompt` standing for the untouched remainder copied by the spread. -/
structure VideoRequest where
  prompt : String
  priority : String
  options : VideoOptions
deriving DecidableEq

/-- The writes `private autoOptimize` performs on the (shared) options
object: downgrade on a slow average, cap fps on a long queue, clamp the free
tier. -/
def autoOptimizeOpts (m : PerformanceMetrics) (opts : VideoOptions)
    (tier : String) : VideoOptions :=
  let o1 := if 60 < m.avgTime then
      { opts with
          bitrate := "low",
          quality := (if opts.quality = "4K" then "1080p" else opts.quality) }
    else opts
  let o2 := if 5 < m.queueLength then { o1 with fps := min o1.fps 30 } else o1
  if tier = "free" then { o2 with quality := "720p", bitrate := "medium" }
  else o2

/-- Models `optimizeParameters(request, userTier)`, returning the pair (returned
descriptor, the caller's request object after the call).  `const optimized =
{ ...request }` copies only the top level, so every write to
`optimized.options` lands in the caller's nested `options` object too; only
top-level writes (`optimized.priority`) stay private to the copy.  In `auto`
mode the source reassigns the `const` binding `optimized`, which raises a
`TypeError` at run time — after `autoOptimize` has already mutated the shared
options; the error value carries the caller-visible request. -/
def optimizeParameters (settings : OptimizationSettings)
    (m : PerformanceMetrics) (req : VideoRequest) (tier : String) :
    Except VideoRequest (VideoRequest × VideoRequest) :=
  match settings.quality with
  | .speed =>
      let o := { req.options with bitrate := "low", fps := min req.options.fps 30 }
      .ok ({ req with options := o, priority := "high" }, { req with options := o })
  | .quality =>
      let o := { req.options with bitrate := "ultra", fps := max req.options.fps 30 }
      .ok ({ req with options := o }, { req with options := o })
  | .balanced =>
      if tier = "free" then
        let o := { req.options with bitrate := "medium", fps := 30 }
        .ok ({ req with options := o }, { req with options := o })
      else .ok (req, req)
  | .auto => .error { req with options := autoOptimizeOpts m req.options tier }

/-- C7, amended.  In the non-`auto` modes the call returns normally and the
caller's request keeps its top-level fields, but its nested `options` object
is the very object of the returned descriptor (mutated in place unless
nothing was written); only in `balanced` mode with a non-free tier is the
input returned unchanged.  The purity claim fails: see the counterexample. -/
theorem c7_amended_mutation : ∀ (settings : OptimizationSettings)
    (m : PerformanceMetrics) (req : VideoRequest) (tier : String),
    settings.quality ≠ QualityPolicy.auto →
    ∃ opt after, optimizeParameters settings m req tier = .ok (opt, after) ∧
      after.options = opt.options ∧
      after.priority = req.priority ∧ after.prompt = req.prompt ∧
      (settings.quality = .balanced → tier ≠ "free" →
        opt = req ∧ after = req) := by
  intro settings m req tier hna
  obtain ⟨q, e1, e2, e3, e4, e5⟩ := settings
  cases q with
  | auto => exact absurd rfl hna
  | speed =>
      refine ⟨_, _, rfl, rfl, rfl, rfl, ?_⟩
      intro hbal
      cases hbal
  | quality =>
      refine ⟨_, _, rfl, rfl, rfl, rfl, ?_⟩
      intro hbal
      cases hbal
  | balanced =>
      by_cases ht : tier = "free"
      · subst ht
        refine ⟨_, _, rfl, rfl, rfl, rfl, fun _ hfree => absurd rfl hfree⟩
      · refine ⟨req, req, ?_, rfl, rfl, rfl, fun _ _ => ⟨rfl, rfl⟩⟩
        show (if tier = "free" then _ else Except.ok (req, req)) = Except.ok (req, req)
        rw [if_neg ht]

/-- Witness for `c7_amended_mutation`: default (balanced) settings, a paid
tier. -/
theorem c7_witness :
    defaultSettings.quality ≠ QualityPolicy.auto ∧
    (∃ opt after, optimizeParameters defaultSettings initialMetrics
        ⟨"p", "normal", ⟨"high", 60, "1080p"⟩⟩ "pro" = .ok (opt, after) ∧
      after.options = opt.options ∧
      after.priority = "normal" ∧ after.prompt = "p" ∧
      (defaultSettings.quality = .balanced → "pro" ≠ "free" →
        opt = ⟨"p", "normal", ⟨"high", 60, "1080p"⟩⟩ ∧
        after = ⟨"p", "normal", ⟨"high", 60, "1080p"⟩⟩)) :=
  ⟨by decide,
    c7_amended_mutation defaultSettings initialMetrics
      ⟨"p", "normal", ⟨"high", 60, "1080p"⟩⟩ "pro" (by decide)⟩

/-- C7, counterexample.  Default (balanced) settings, free tier: after the
call the caller's request object carries `bitrate = "medium"`, `fps = 30` in
its nested options — the input was mutated, so the function is not free of
side effects beyond its return value. -/
theorem c7_counterexample :
    optimizeParameters defaultSettings initialMetrics
        ⟨"p", "normal", ⟨"high", 60, "1080p"⟩⟩ "free"
      = .ok (⟨"p", "normal", ⟨"medium", 30, "1080p"⟩⟩,
          ⟨"p", "normal", ⟨"medium", 30, "1080p"⟩⟩) ∧
    (⟨"p", "normal", ⟨"medium", 30, "1080p"⟩⟩ : VideoRequest)
      ≠ ⟨"p", "normal", ⟨"high", 60, "1080p"⟩⟩ := by
  exact ⟨rfl, by decide⟩

end PerformanceOptimizer

namespace VideoQueueManager

/-- Four adds from the empty queue with priorities low, high, normal, high
(the scenario of the queue-ordering claim); ids are 0, 1, 2, 3 in add
order. -/
def c2state : QState :=
  (add (add (add (add qInit "a" "" .low 0 0).1 "b" "" .high 0 1).1
    "c" "" .normal 0 2).1 "d" "" .high 0 3).1

/-- C2, counterexample.  Starting empty, each `add` immediately admits (the
default cap is 3), so after the four adds the processing map holds, in
admission order, the low, the first high and the normal item — the very first
admission is the LOW item.  Completing it admits the remaining high item
last.  The overall admission order is low, high, normal, high — not the
claimed high, high, normal, low. -/
theorem c2_counterexample :
    c2state.processing.filterMap
        (fun id => (c2state.store id).map QueueItem.priority)
      = [.low, .high, .normal] ∧
    (updateProgress c2state 0 100 (some .completed) 10).processing.filterMap
        (fun id => ((updateProgress c2state 0 100 (some .completed) 10).store
          id).map QueueItem.priority)
      = [.high, .normal, .high] ∧
    ([Priority.low, Priority.high, Priority.normal] : List Priority)
      ≠ [Priority.high, Priority.high, Priority.normal] := by
  exact ⟨by decide, by decide, by decide⟩

/-- Seven adds: three `normal` fillers that saturate the cap, then the four
items of the ordering scenario (low, high, normal, high; ids 3, 4, 5, 6). -/
def satState : QState :=
  (add (add (add (add (add (add (add qInit "d1" "" .normal 0 0).1
    "d2" "" .normal 0 1).1 "d3" "" .normal 0 2).1 "L" "" .low 0 3).1
    "H1" "" .high 0 4).1 "N" "" .normal 0 5).1 "H2" "" .high 0 6).1

def satA : QState := updateProgress satState 0 100 (some .completed) 10

def satB : QState := updateProgress satA 1 100 (some .completed) 11

def satC : QState := updateProgress satB 2 100 (some .completed) 12

def satD : QState := updateProgress satC 4 100 (some .completed) 13

/-- The priorities of the items admitted by the step from `s` to `s'`. -/
def newlyAdmitted (s sNew : QState) : List Priority :=
  (sNew.processing.filter (fun id => !(s.processing.contains id))).filterMap
    (fun id => (sNew.store id).map QueueItem.priority)

/-- C2, amended.  The spec's admission order holds once the concurrency cap
is saturated: with three items already processing, adding low, high, normal,
high leaves all four queued, stored in priority order high, high, normal, low
(ties keeping arrival order), and as processing items reach a terminal state
the four are admitted in exactly that order.  Starting EMPTY instead, the
default cap 3 admits the first three adds immediately in arrival order (low,
high, normal — see the counterexample). -/
theorem c2_amended_order :
    satState.queue.filterMap (fun id => (satState.store id).bind (fun it =>
        if it.status = .queued then some it.priority else none))
      = [.high, .high, .normal, .low] ∧
    newlyAdmitted satState satA = [.high] ∧
    newlyAdmitted satA satB = [.high] ∧
    newlyAdmitted satB satC = [.normal] ∧
    newlyAdmitted satC satD = [.low] := by
  refine ⟨by decide, by decide, by decide, by decide, by decide⟩

/-- Five adds from the empty queue (the concurrency-ceiling scenario). -/
def fiveAdds : QState :=
  (add (add (add (add (add qInit "a" "" .normal 10 0).1 "b" "" .normal 10 1).1
    "c" "" .normal 10 2).1 "d" "" .normal 10 3).1 "e" "" .normal 10 4).1

/-- C3.  In every reachable state the processing map never holds more than
`maxConcurrent` items (and the cap is the default 3); with five items added
at once, exactly 3 are processing and 2 stay queued, and after one processing
item is completed exactly one more is admitted (3 processing, 1 queued). -/
theorem c3_concurrency_cap :
    (∀ s : QState, QReachable s →
        s.processing.length ≤ s.maxConcurrent ∧ s.maxConcurrent = 3) ∧
    ((getStatus fiveAdds).processing = 3 ∧ (getStatus fiveAdds).queued = 2 ∧
      (getStatus (updateProgress fiveAdds 0 100 (some .completed) 9)).processing
          = 3 ∧
      (getStatus (updateProgress fiveAdds 0 100 (some .completed) 9)).queued
          = 1) := by
  constructor
  · intro s hs
    exact ⟨(qwf_reachable hs).procLe, (qwf_reachable hs).maxcc⟩
  · exact ⟨by decide, by decide, by decide, by decide⟩

/-- Witness for `c3_concurrency_cap` at the initial (reachable) state. -/
theorem c3_witness :
    qInit.processing.length ≤ qInit.maxConcurrent ∧ qInit.maxConcurrent = 3 :=
  c3_concurrency_cap.1 qInit QReachable.init

/-- C10.  In every reachable state, an item held by the processing map is also
still in the stored queue list, so the `getAll()` snapshot lists it (at
least) twice — once from the queue list and once from the processing map —
while `getStatus().total` is the queue-list length (counting it there) and
`getStatus().processing` counts it once. -/
theorem c10_processing_in_queue : ∀ s : QState, QReachable s →
    ∀ id ∈ s.processing,
      id ∈ s.queue ∧
      2 ≤ ((getAll s).filter (fun it => it.id == id)).length ∧
      (getStatus s).total = s.queue.length ∧
      (getStatus s).processing = s.processing.length := by
  intro s hs id hid
  have h := qwf_reachable hs
  have hq : id ∈ s.queue := h.procSubQueue id hid
  refine ⟨hq, ?_, rfl, rfl⟩
  have hdef := h.storeDefined id hq
  cases hst : s.store id with
  | none => simp [hst] at hdef
  | some it =>
      have hit : it.id = id := h.storeId id it hst
      have hmemq : it ∈ s.queue.filterMap s.store :=
        List.mem_filterMap.mpr ⟨id, hq, hst⟩
      have hmemp : it ∈ s.processing.filterMap s.store :=
        List.mem_filterMap.mpr ⟨id, hid, hst⟩
      have h1 : 0 < ((s.queue.filterMap s.store).filter
          (fun x => x.id == id)).length :=
        List.length_pos_of_mem
          (List.mem_filter.mpr ⟨hmemq, by simp [hit]⟩)
      have h2 : 0 < ((s.processing.filterMap s.store).filter
          (fun x => x.id == id)).length :=
        List.length_pos_of_mem
          (List.mem_filter.mpr ⟨hmemp, by simp [hit]⟩)
      unfold getAll
      rw [List.filter_append, List.length_append]
      omega

/-- Witness for `c10_processing_in_queue`: the state after one add, whose
item 0 was admitted. -/
theorem c10_witness :
    (0 ∈ (add qInit "p" "" Priority.normal 7 0).1.processing) ∧
    (0 ∈ (add qInit "p" "" Priority.normal 7 0).1.queue ∧
      2 ≤ ((getAll (add qInit "p" "" Priority.normal 7 0).1).filter
        (fun it => it.id == 0)).length ∧
      (getStatus (add qInit "p" "" Priority.normal 7 0).1).total
        = (add qInit "p" "" Priority.normal 7 0).1.queue.length ∧
      (getStatus (add qInit "p" "" Priority.normal 7 0).1).processing
        = (add qInit "p" "" Priority.normal 7 0).1.processing.length) :=
  ⟨by decide,
    c10_processing_in_queue (add qInit "p" "" Priority.normal 7 0).1
      (QReachable.add "p" "" Priority.normal 7 0 QReachable.init) 0 (by decide)⟩

end VideoQueueManager

namespace Persistence

/-- A browser-storage backend as the components see it: whether a
`localStorage.setItem` write throws (e.g. quota exceeded), and whether a
stored payload fails to load or parse. -/
structure Backend where
  saveFails : Bool
  loadFails : Bool
deriving DecidableEq

/-- Models `CacheManager.set` including its persistence step: `saveCache` wraps its
`setItem` calls in try/catch, so the operation completes normally for every
backend. -/
def cacheSetT {α : Type} (b : Backend) (calcSize : α → Nat)
    (s : CacheManager.CacheState α) (k : String) (d : α) (ttl : Option Nat)
    (now : Nat) : Except Unit (CacheManager.CacheState α × Bool) :=
  .ok (CacheManager.set calcSize s k d ttl now)

/-- Models `CacheManager.delete` including its persistence step (`saveCache`,
caught). -/
def cacheDeleteT {α : Type} (b : Backend) (s : CacheManager.CacheState α)
    (k : String) : Except Unit (CacheManager.CacheState α × Bool) :=
  .ok (CacheManager.deleteEntry s k)

/-- Models `CacheManager.clear`: `localStorage.removeItem` does not throw. -/
def cacheClearT {α : Type} (b : Backend) (s : CacheManager.CacheState α) :
    Except Unit (CacheManager.CacheState α) :=
  .ok (CacheManager.clearCache s)

/-- The expiry sweep including its persistence step (`saveCache`, caught). -/
def cacheCleanupT {α : Type} (b : Backend) (s : CacheManager.CacheState α)
    (now : Nat) : Except Unit (CacheManager.CacheState α) :=
  .ok (CacheManager.cleanupSweep s now)

/-- Models `loadCache`: the whole read/parse is inside try/catch; on failure the
constructor state stands. -/
def cacheLoadT {α : Type} (b : Backend) (stored : CacheManager.CacheState α) :
    Except Unit (CacheManager.CacheState α) :=
  .ok (if b.loadFails then CacheManager.initCache α else stored)

/-- Models `VideoQueueManager.add` including persistence: splice, then `saveQueue`
— a bare `localStorage.setItem` with NO try/catch, so a failing write throws
out of `add` (before `processNext` even runs). -/
def queueAddT (b : Backend) (s : VideoQueueManager.QState)
    (prompt options : String) (p : VideoQueueManager.Priority) (est now : Nat) :
    Except Unit (VideoQueueManager.QState × Nat) :=
  let s1 := VideoQueueManager.addInsert s prompt options p est now
  if b.saveFails then .error ()
  else .ok (VideoQueueManager.processNext s1, s.nextId)

/-- Models `VideoQueueManager.remove` including persistence: the not-found early
return skips `saveQueue`; otherwise the uncaught write can throw. -/
def queueRemoveT (b : Backend) (s : VideoQueueManager.QState) (id : Nat) :
    Except Unit (VideoQueueManager.QState × Bool) :=
  if s.queue.contains id then
    (if b.saveFails then .error () else .ok (VideoQueueManager.remove s id))
  else .ok (s, false)

/-- Models `VideoQueueManager.updateProgress` including persistence: the not-found
early return skips `saveQueue`; otherwise the uncaught write at the end can
throw (after the in-memory mutation already happened). -/
def queueUpdateT (b : Backend) (s : VideoQueueManager.QState)
    (id progress : Nat) (status : Option VideoQueueManager.QStatus) (now : Nat) :
    Except Unit VideoQueueManager.QState :=
  if s.queue.contains id || s.processing.contains id then
    (if b.saveFails then .error ()
     else .ok (VideoQueueManager.updateProgress s id progress status now))
  else .ok s

/-- Models `VideoQueueManager.clearCompleted` including persistence (uncaught
`saveQueue`). -/
def queueClearCompletedT (b : Backend) (s : VideoQueueManager.QState) :
    Except Unit VideoQueueManager.QState :=
  if b.saveFails then .error () else .ok (VideoQueueManager.clearCompleted s)

/-- Models `loadQueue`: wrapped in try/catch; on failure the queue stays empty. -/
def queueLoadT (b : Backend) (stored : VideoQueueManager.QState) :
    Except Unit VideoQueueManager.QState :=
  .ok (if b.loadFails then VideoQueueManager.qInit else stored)

/-- Models `PerformanceOptimizer.recordProcessingTime` including persistence:
`saveMetrics` is two bare `localStorage.setItem` calls with NO try/catch. -/
def optRecordT (b : Backend) (s : PerformanceOptimizer.OptState) (timeMs : ℚ)
    (success : Bool) : Except Unit PerformanceOptimizer.OptState :=
  if b.saveFails then .error ()
  else .ok (PerformanceOptimizer.recordProcessingTime s timeMs success)

/-- Models `loadMetrics`: wrapped in try/catch; on failure the constructor state
stands. -/
def optLoadT (b : Backend) (stored : PerformanceOptimizer.OptState) :
    Except Unit PerformanceOptimizer.OptState :=
  .ok (if b.loadFails then PerformanceOptimizer.optInit else stored)

/-- An operation completed normally (no exception reached the caller). -/
def completes {β : Type} (e : Except Unit β) : Prop := ∃ v, e = Except.ok v

/-- C6, amended.  CacheManager's operations and every load path of the three
components swallow persistence failures and complete normally on the
in-memory state; but the save paths of VideoQueueManager (`saveQueue`, run
by add / remove / updateProgress / clearCompleted) and of
PerformanceOptimizer (`saveMetrics`, run by recordProcessingTime) are not
wrapped in try/catch, so those operations complete normally only when the
backend write succeeds — a failing write propagates to the caller (see the
counterexample). -/
theorem c6_amended_persistence : ∀ (b : Backend) (α : Type)
    (calcSize : α → Nat) (sc : CacheManager.CacheState α) (k : String) (d : α)
    (ttl : Option Nat) (now : Nat) (sq : VideoQueueManager.QState)
    (prompt options : String) (p : VideoQueueManager.Priority)
    (est id progress : Nat) (status : Option VideoQueueManager.QStatus)
    (so : PerformanceOptimizer.OptState) (timeMs : ℚ) (success : Bool),
    (completes (cacheSetT b calcSize sc k d ttl now) ∧
      completes (cacheDeleteT b sc k) ∧
      completes (cacheClearT b sc) ∧
      completes (cacheCleanupT b sc now) ∧
      completes (cacheLoadT b sc) ∧
      completes (queueLoadT b sq) ∧
      completes (optLoadT b so)) ∧
    (b.saveFails = false →
      (completes (queueAddT b sq prompt options p est now) ∧
        completes (queueRemoveT b sq id) ∧
        completes (queueUpdateT b sq id progress status now) ∧
        completes (queueClearCompletedT b sq) ∧
        completes (optRecordT b so timeMs success))) := by
  intro b α calcSize sc k d ttl now sq prompt options p est id progress status
    so timeMs success
  refine ⟨⟨⟨_, rfl⟩, ⟨_, rfl⟩, ⟨_, rfl⟩, ⟨_, rfl⟩, ⟨_, rfl⟩, ⟨_, rfl⟩, ⟨_, rfl⟩⟩,
    fun hb => ⟨?_, ?_, ?_, ?_, ?_⟩⟩
  · unfold queueAddT
    rw [hb]
    exact ⟨_, rfl⟩
  · unfold queueRemoveT
    rw [hb]
    by_cases hc : sq.queue.contains id
    · rw [if_pos hc]
      exact ⟨_, rfl⟩
    · rw [if_neg hc]
      exact ⟨_, rfl⟩
  · unfold queueUpdateT
    rw [hb]
    by_cases hc : sq.queue.contains id || sq.processing.contains id
    · rw [if_pos hc]
      exact ⟨_, rfl⟩
    · rw [if_neg hc]
      exact ⟨_, rfl⟩
  · unfold queueClearCompletedT
    rw [hb]
    exact ⟨_, rfl⟩
  · unfold optRecordT
    rw [hb]
    exact ⟨_, rfl⟩

/-- Witness for `c6_amended_persistence`: a backend whose loads fail but
whose writes succeed. -/
theorem c6_witness :
    ((⟨false, true⟩ : Backend).saveFails = false) ∧
    (completes (queueAddT ⟨false, true⟩ VideoQueueManager.qInit "p" ""
        VideoQueueManager.Priority.normal 0 0) ∧
      completes (queueRemoveT ⟨false, true⟩ VideoQueueManager.qInit 0) ∧
      completes (queueUpdateT ⟨false, true⟩ VideoQueueManager.qInit 0 50
        none 0) ∧
      completes (queueClearCompletedT ⟨false, true⟩ VideoQueueManager.qInit) ∧
      completes (optRecordT ⟨false, true⟩ PerformanceOptimizer.optInit 5000
        true)) :=
  ⟨rfl,
    (c6_amended_persistence ⟨false, true⟩ Nat (fun _ => 0)
      (CacheManager.initCache Nat) "k" 0 none 0 VideoQueueManager.qInit "p" ""
      VideoQueueManager.Priority.normal 0 0 50 none
      PerformanceOptimizer.optInit 5000 true).2 rfl⟩

/-- C6, counterexample.  With a backend whose writes fail (quota exceeded),
`VideoQueueManager.add` and `PerformanceOptimizer.recordProcessingTime`
propagate the persistence failure to the caller as a thrown error instead of
completing normally. -/
theorem c6_counterexample :
    queueAddT ⟨true, false⟩ VideoQueueManager.qInit "p" ""
        VideoQueueManager.Priority.normal 0 0 = .error () ∧
    optRecordT ⟨true, false⟩ PerformanceOptimizer.optInit 5000 true
        = .error () :=
  ⟨rfl, rfl⟩

end Persistence
